import Mathlib

/-!
Verification of the document ingestion and retrieval pipeline
(`app/services`: `pinecone_service.py`, `embedding_service.py`,
`rag_service.py`, `document_service.py`, `parsers.py`).

Conventions of the embedding:
* Python strings are Lean `String`s; similarity scores and embedding
  values are modelled as rationals (`ℚ`) — every comparison the code
  performs on them is an order comparison that coincides with the float
  comparison on the values involved in the claims.
* Python's builtin `hash` on strings is process-seeded; it is modelled
  as an unspecified function `pyHash : String → Int` that is fixed for
  one process.  CPython guarantees its values fit in a signed 64-bit
  word; theorems that need that fact take it as a hypothesis.
* `str(n)` on a Python integer is modelled by `natStr` / `intStr`,
  ordinary decimal rendering.
* Fallible operations return `Except String α`; a raised exception is
  an `Except.error` carrying the message.
-/

namespace RagPipeline

/-! ### Decimal rendering (model of Python `str` on integers) -/

/-- The decimal digit character for `d < 10` (model of rendering one digit). -/
def decDigit (d : Nat) : Char :=
  match d with
  | 0 => '0' | 1 => '1' | 2 => '2' | 3 => '3' | 4 => '4'
  | 5 => '5' | 6 => '6' | 7 => '7' | 8 => '8' | 9 => '9'
  | _ => '*'

/-- Decimal digit list, most significant first, with explicit fuel so
that the kernel can evaluate it; `natChars` supplies enough fuel. -/
def natCharsGo : Nat → Nat → List Char
  | 0, _ => []
  | fuel + 1, n =>
    if n < 10 then [decDigit n]
    else natCharsGo fuel (n / 10) ++ [decDigit (n % 10)]

/-- Decimal digit list of a natural number, most significant first. -/
def natChars (n : Nat) : List Char := natCharsGo (n + 1) n

/-- Model of Python `str(n)` for a non-negative integer. -/
def natStr (n : Nat) : String := ⟨natChars n⟩

/-- Model of Python `str(h)` for a (possibly negative) integer. -/
def intStr : Int → String
  | Int.ofNat m => natStr m
  | Int.negSucc m => "-" ++ natStr (m + 1)

/-- Numeric value of a digit character. -/
def digitVal (c : Char) : Nat := c.toNat - 48

/-- Value of a decimal digit string, most significant first. -/
def decValue (l : List Char) : Nat := l.foldl (fun a c => 10 * a + digitVal c) 0

/-! ### Vector identifiers (`PineconeService.prepare_vectors`) -/

/-- A chunk document as built by `DocumentService.process_document`
(`{"text": chunk, "metadata": {filename, chunk_index, total_chunks}}`). -/
structure ChunkDoc where
  text : String
  filename : String
  chunk_index : Nat
  total_chunks : Nat
deriving DecidableEq

/-- A vector prepared for upsert: id, values and flattened metadata
(`{"text": ..., **doc["metadata"]}`). -/
structure PineVector where
  id : String
  values : List ℚ
  text : String
  filename : String
  chunk_index : Nat
  total_chunks : Nat
deriving DecidableEq

/-- `f"{filename}_{i}_{hash}"` — the vector identifier string
(`pinecone_service.py` line 49). -/
def mkVectorId (filename : String) (i : Nat) (hashVal : Int) : String :=
  filename ++ "_" ++ natStr i ++ "_" ++ intStr hashVal

/-- `PineconeService.prepare_vectors`: iterate
`enumerate(zip(documents, embeddings))` and build the vectors. -/
def prepare_vectors (pyHash : String → Int) (documents : List ChunkDoc)
    (embeddings : List (List ℚ)) (filename : String) : List PineVector :=
  ((documents.zip embeddings).enum).map fun p =>
    { id := mkVectorId filename p.1 (pyHash p.2.1.text)
      values := p.2.2
      text := p.2.1.text
      filename := p.2.1.filename
      chunk_index := p.2.1.chunk_index
      total_chunks := p.2.1.total_chunks }

/-! ### Retrieval: similarity filter, deduplication, fallback
(`rag_service.py`) -/

/-- A retrieved passage: `page_content` plus the two metadata keys the
retrieval code reads (`'score'` and `'similarity_score'`); `none`
models an absent key. -/
structure PDoc where
  page_content : String
  score : Option ℚ
  similarity_score : Option ℚ
deriving DecidableEq

/-- Configured `PINECONE_RAG_K` (config.py). -/
def PINECONE_RAG_K : Nat := 30

/-- Configured `PINECONE_RAG_SIMILARITY_THRESHOLD = 0.3` (config.py),
written as a reduced fraction so that the kernel can compute with it. -/
def PINECONE_RAG_SIMILARITY_THRESHOLD : ℚ := ⟨3, 10, by norm_num, by norm_num⟩

/-- The rational 1/10, a score strictly below the configured threshold. -/
def qTenth : ℚ := ⟨1, 10, by norm_num, by norm_num⟩

/-- Python `a or b` on optional numbers: `a` when it is truthy (present
and nonzero), otherwise `b` — so a present `0` falls through. -/
def pyOr (a b : Option ℚ) : Option ℚ :=
  match a with
  | none => b
  | some x => if x = 0 then b else some x

/-- `doc.metadata.get('score') or doc.metadata.get('similarity_score')`
(`rag_service.py` line 185). -/
def effScore (d : PDoc) : Option ℚ := pyOr d.score d.similarity_score

/-- `RAGService._filter_by_similarity` (`rag_service.py` lines 171-199). -/
def filter_by_similarity (threshold : ℚ) (documents : List PDoc) : List PDoc :=
  if documents.isEmpty then []
  else if threshold ≤ 0 then documents
  else
    let filtered_docs := documents.filter fun d =>
      match effScore d with
      | some s => decide (threshold ≤ s)
      | none => true
    if filtered_docs.isEmpty then documents.take (min 10 documents.length)
    else filtered_docs

/-- The retention test of the filter: a passage is kept when it has no
usable (truthy) score, or its usable score clears the threshold. -/
def keepsPassage (threshold : ℚ) (d : PDoc) : Bool :=
  match effScore d with
  | some s => decide (threshold ≤ s)
  | none => true

/-- The filter as the spec's words describe it: drop exactly the scored
passages below the threshold (a score being either metadata key), fall
back to the top-K unfiltered candidates when everything was dropped. -/
def specFilterTopK (threshold : ℚ) (K : Nat) (documents : List PDoc) : List PDoc :=
  if documents.isEmpty then []
  else if threshold ≤ 0 then documents
  else
    let filtered := documents.filter fun d =>
      match d.score.orElse (fun _ => d.similarity_score) with
      | some s => decide (threshold ≤ s)
      | none => true
    if filtered.isEmpty then documents.take K
    else filtered

/-! ### Deduplication (`RAGService.deduplicate_documents`) -/

/-- `hash(content[:500])` — the content-prefix fingerprint
(`rag_service.py` line 240).  As everywhere in this development,
Python's process-seeded string hash is the parameter `pyHash`; two
passages agreeing on their first 500 characters always share a
fingerprint, and distinct prefixes share one exactly when the hash
collides. -/
def fingerprint (pyHash : String → Int) (d : PDoc) : Int :=
  pyHash (d.page_content.take 500)

/-- The loop of `deduplicate_documents`: walk the list keeping a `seen`
set of fingerprints, appending each document whose fingerprint is new. -/
def dedupGo (pyHash : String → Int) (seen : List Int) : List PDoc → List PDoc
  | [] => []
  | d :: ds =>
    if fingerprint pyHash d ∈ seen then dedupGo pyHash seen ds
    else d :: dedupGo pyHash (fingerprint pyHash d :: seen) ds

/-- `RAGService.deduplicate_documents` (`rag_service.py` lines 229-246):
first-seen deduplication, then cap to `PINECONE_RAG_K`. -/
def deduplicate_documents (pyHash : String → Int) (documents : List PDoc) :
    List PDoc :=
  if documents.isEmpty then []
  else (dedupGo pyHash [] documents).take PINECONE_RAG_K

/-- First-seen deduplication, written as a recursion that makes the
kept element of every fingerprint group explicit. -/
def firstSeen (pyHash : String → Int) : List PDoc → List PDoc
  | [] => []
  | d :: ds =>
    d :: firstSeen pyHash (ds.filter fun x =>
      decide (fingerprint pyHash x ≠ fingerprint pyHash d))
termination_by l => l.length
decreasing_by
  simpa using Nat.lt_succ_of_le (List.length_filter_le _ _)

/-! ### The retriever's final fallback (`RAGService.retrieve_context`,
lines 274-300) -/

/-- The document-selection part of `retrieve_context`: fan-out search
results, else the direct retry, else the low-level
`similarity_search_with_score` results with the scores discarded
(`relevant_docs = [doc for doc, score in results]`), then
deduplication. -/
def retrieve_context_docs (pyHash : String → Int) (fanout direct : List PDoc)
    (store : List (PDoc × ℚ)) : List PDoc :=
  let r1 := fanout
  let r2 := if r1.isEmpty then direct else r1
  let r3 := if r2.isEmpty then store.map Prod.fst else r2
  deduplicate_documents pyHash r3

/-- Insertion into a list sorted by ascending score. -/
def insertByScore (p : PDoc × ℚ) : List (PDoc × ℚ) → List (PDoc × ℚ)
  | [] => [p]
  | q :: qs => if p.2 ≤ q.2 then p :: q :: qs else q :: insertByScore p qs

/-- Modelled from the spec: the claimed final fallback — convert each
raw distance `> 1` to `1 / (1 + distance)`, keep scores `≤ 1` as
already-normalized similarities, and rank the passages by ascending
original distance. -/
def specFallbackRanked (results : List (PDoc × ℚ)) : List PDoc :=
  ((results.map fun p =>
      ((⟨p.1.page_content, p.1.score,
          some (if 1 < p.2 then 1 / (1 + p.2) else p.2)⟩ : PDoc), p.2)).foldr
    insertByScore []).map Prod.fst

/-! ### Parallel embedding generation
(`EmbeddingService.generate_embeddings`) -/

/-- Consecutive batches of `bs` texts (`texts[i:i+bs]` for
`i = 0, bs, 2*bs, ...`), written with explicit fuel; `batchesOf` below
supplies enough fuel for any positive batch size. -/
def batchesGo : Nat → Nat → List String → List (List String)
  | 0, _, _ => []
  | fuel + 1, bs, l =>
    if l.isEmpty then []
    else l.take bs :: batchesGo fuel bs (l.drop bs)

def batchesOf (bs : Nat) (l : List String) : List (List String) :=
  batchesGo l.length bs l

/-- The numbered batches `(i // bs + 1, texts[i:i+bs])` exactly as
built at `embedding_service.py` lines 24-26. -/
def enumBatches (bs : Nat) (texts : List String) : List (Nat × List String) :=
  ((batchesOf bs texts).enum).map fun p => (p.1 + 1, p.2)

/-- The `as_completed` collection loop (`embedding_service.py` lines
43-52): walk the batch results in completion order, recording each
result keyed by its batch number; the first failed batch raises
`"Batch {n} error: {e}"`. -/
def collectResults (provider : List String → Except String (List (List ℚ))) :
    List (Nat × List String) → Except String (List (Nat × List (List ℚ)))
  | [] => Except.ok []
  | (n, b) :: rest =>
    match provider b with
    | Except.error e => Except.error ("Batch " ++ natStr n ++ " error: " ++ e)
    | Except.ok r =>
      match collectResults provider rest with
      | Except.error e2 => Except.error e2
      | Except.ok m => Except.ok ((n, r) :: m)

/-- Ordering of collected results by batch number, used to model
`for batch_num in sorted(batch_results.keys())`. -/
def keyLE (a b : Nat × List (List ℚ)) : Prop := a.1 ≤ b.1

instance : DecidableRel keyLE := fun a b => Nat.decLe a.1 b.1

instance : IsTotal (Nat × List (List ℚ)) keyLE := ⟨fun a b => Nat.le_total a.1 b.1⟩

instance : IsTrans (Nat × List (List ℚ)) keyLE := ⟨fun _ _ _ => Nat.le_trans⟩

/-- Strict version of `keyLE`; vacuously antisymmetric, which is what
lets a sorted association list with distinct keys be unique. -/
def keyLT (a b : Nat × List (List ℚ)) : Prop := a.1 < b.1

instance : IsAntisymm (Nat × List (List ℚ)) keyLT :=
  ⟨fun _ _ h1 h2 => absurd (Nat.lt_trans h1 h2) (Nat.lt_irrefl _)⟩

/-- `EmbeddingService.generate_embeddings` (`embedding_service.py`
lines 18-58).  `order` is the list of numbered batches in the order the
worker futures complete; the theorems quantify over every permutation
of the batch list, which is exactly the nondeterminism of
`as_completed`.  Results are reassembled by ascending batch number. -/
def generate_embeddings (provider : List String → Except String (List (List ℚ)))
    (_bs : Nat) (texts : List String) (order : List (Nat × List String)) :
    Except String (List (List ℚ)) :=
  if texts.isEmpty then Except.ok []
  else
    match collectResults provider order with
    | Except.error e => Except.error e
    | Except.ok m =>
      Except.ok (((List.insertionSort keyLE m).map Prod.snd).flatten)

/-- An always-succeeding provider built from a pure batch function. -/
def providerOf (f : List String → List (List ℚ)) :
    List String → Except String (List (List ℚ)) :=
  fun b => Except.ok (f b)

/-! ### Ingestion pipeline (`DocumentService.process_document`) and the
PDF parser's progress reporting (`DocumentParser.parse_pdf`).

Messages are modelled without Python's thousands-separator formatting
(`{n:,}`); no claim inspects message text. -/

/-- A progress callback invocation `(phase, message, percent)`. -/
structure ProgressEvent where
  phase : String
  message : String
  percent : Nat
deriving DecidableEq

/-- The result dictionary of `process_document`: either
`{"success": True, "filename", "chunks_processed", "total_chars"}` or
`{"success": False, "error"}`; absent keys are `none`. -/
structure ProcResult where
  success : Bool
  filename : Option String
  chunks_processed : Option Nat
  total_chars : Option Nat
  error : Option String
deriving DecidableEq

/-- One run of the pipeline: the returned result, the full progress
trace, and the vectors passed to the upsert stage (`none` when the
upsert was never invoked, i.e. nothing was written to the store). -/
structure ProcOutcome where
  result : ProcResult
  trace : List ProgressEvent
  upserted : Option (List PineVector)
deriving DecidableEq

def failRes (e : String) : ProcResult :=
  { success := false, filename := none, chunks_processed := none
    total_chars := none, error := some e }

/-- Model of `Path(filename).suffix.lower()`: the lowercased extension
from the last dot, empty when there is no dot, the dot is leading (a
hidden file) or trailing. -/
def fileExt (filename : String) : String :=
  let rev := filename.data.reverse
  let afterDot := rev.takeWhile fun c => c ≠ '.'
  if afterDot.length = rev.length then ""
  else if afterDot.length + 1 = rev.length then ""
  else if afterDot.isEmpty then ""
  else ⟨('.' :: afterDot.reverse).map Char.toLower⟩

/-- One PDF page as the parser model sees it: extracted text and the
number of images found (tables and per-image description text do not
influence any claim; image description is modelled as succeeding with a
fixed text). -/
structure PdfPage where
  text : String
  imageCount : Nat
deriving DecidableEq

def imageDescs (pageIdx k : Nat) : List String :=
  (List.range k).map fun i =>
    "Image " ++ natStr (i + 1) ++ " (Page " ++ natStr (pageIdx + 1) ++ "): IMG"

/-- Progress events of `_extract_images_from_pdf_page` (`parsers.py`
lines 308-423): one event at 18 when analysis starts, then one per
completed image at `18 + int(completed/total * 1)`. -/
def pdfImageEvents (pageIdx _tot k : Nat) : List ProgressEvent :=
  if k = 0 then []
  else
    (⟨"parsing", "Analyzing " ++ natStr k ++ " images from page "
        ++ natStr (pageIdx + 1) ++ " with AI...", 18⟩ : ProgressEvent)
    :: ((List.range k).map fun c =>
        ⟨"parsing", "Analyzed image " ++ natStr (c + 1) ++ "/" ++ natStr k
            ++ " from page " ++ natStr (pageIdx + 1) ++ "...",
          18 + (c + 1) / k⟩)

/-- `DocumentParser.parse_pdf` (`parsers.py` lines 212-306), restricted
to the progress trace and the assembled content: page events at
`12 + int(page_num/total * 5)`, image extraction events at 17/18/19
inside the page loop. -/
def parse_pdf (pages : List PdfPage) : List ProgressEvent × String :=
  let tot := pages.length
  let header : List ProgressEvent :=
    [⟨"parsing", "Opening PDF file...", 10⟩,
     ⟨"parsing", "Processing " ++ natStr tot ++ " pages...", 12⟩]
  let pageData := pages.enum.map fun p =>
    let ev0 : List ProgressEvent :=
      [⟨"parsing", "Processing page " ++ natStr (p.1 + 1) ++ "/" ++ natStr tot
          ++ "...", 12 + (p.1 * 5) / tot⟩]
    let evImg : List ProgressEvent :=
      if p.2.imageCount = 0 then []
      else ⟨"parsing", "Extracting images from page " ++ natStr (p.1 + 1) ++ "/"
              ++ natStr tot ++ "...", 17⟩
           :: pdfImageEvents p.1 tot p.2.imageCount
    let contentParts : List String :=
      (if p.2.text = "" then [] else [p.2.text])
      ++ (if p.2.imageCount = 0 then []
          else ["\n[IMAGES]\n" ++ String.intercalate "\n"
                  (imageDescs p.1 p.2.imageCount) ++ "\n[/IMAGES]"])
    let pagePart : List String :=
      if contentParts.isEmpty then []
      else ["\n--- Page " ++ natStr (p.1 + 1) ++ " ---\n"
              ++ String.intercalate "\n" contentParts]
    (ev0 ++ evImg, pagePart)
  (header ++ (pageData.map Prod.fst).flatten,
   String.intercalate "\n\n" (pageData.map Prod.snd).flatten)

/-- `DocumentService.process_document` (`document_service.py` lines
28-150).  The collaborators are parameters: `parse` is the outcome of
the parser dispatched on the file extension (including its progress
events), `splitText` the text splitter, `getIndex` the
`PineconeService.get_index` call, `embedAll` the embedding stage and
`upsert` the vector upsert.  The surrounding `try/except Exception`
turns every stage failure into a `success=False` result. -/
def process_document (parse : Except String (List ProgressEvent × String))
    (splitText : String → List String) (getIndex : Except String Unit)
    (embedAll : List String → Except String (List (List ℚ)))
    (upsert : List PineVector → Except String Nat)
    (pyHash : String → Int) (filename : String) : ProcOutcome :=
  let t0 : List ProgressEvent := [⟨"parsing", "Parsing document content...", 10⟩]
  let ext := fileExt filename
  if ¬ (ext = ".docx" ∨ ext = ".doc" ∨ ext = ".pdf" ∨ ext = ".txt") then
    ⟨failRes ("Unsupported file type: " ++ ext), t0, none⟩
  else
    match parse with
    | Except.error e => ⟨failRes e, t0, none⟩
    | Except.ok pc =>
      let ptrace := pc.1
      let content := pc.2
      let t1 := t0 ++ ptrace
      if content = "" then
        ⟨failRes "No content extracted from document", t1, none⟩
      else
        let t2 := t1 ++ [⟨"parsing", "Parsed " ++ natStr content.length
                            ++ " characters", 20⟩,
                         ⟨"chunking", "Chunking document into smaller pieces...", 30⟩]
        let chunks := splitText content
        let total_chars := (chunks.map String.length).sum
        let t3 := t2 ++ [⟨"chunking", "Created " ++ natStr chunks.length
                            ++ " chunks", 40⟩,
                         ⟨"preparing", "Preparing documents for embedding...", 45⟩]
        let documents := chunks.enum.map fun p =>
          ChunkDoc.mk p.2 filename p.1 chunks.length
        let t4 := t3 ++ [⟨"preparing", "Prepared " ++ natStr documents.length
                            ++ " documents", 50⟩]
        match getIndex with
        | Except.error e => ⟨failRes e, t4, none⟩
        | Except.ok _ =>
          let t5 := t4 ++ [⟨"preparing", "Connected to Pinecone", 55⟩,
                           ⟨"embedding", "Generating embeddings for "
                              ++ natStr documents.length ++ " chunks...", 60⟩]
          match embedAll (documents.map ChunkDoc.text) with
          | Except.error e => ⟨failRes e, t5, none⟩
          | Except.ok all_embeddings =>
            let t6 := t5 ++ [⟨"embedding", "Generated "
                                ++ natStr all_embeddings.length ++ " embeddings", 75⟩]
            let vectors := prepare_vectors pyHash documents all_embeddings filename
            let t7 := t6 ++ [⟨"indexing", "Indexing " ++ natStr vectors.length
                                ++ " vectors...", 80⟩]
            match upsert vectors with
            | Except.error e => ⟨failRes e, t7, some vectors⟩
            | Except.ok n =>
              ⟨{ success := true, filename := some filename
                 chunks_processed := some documents.length
                 total_chars := some total_chars, error := none },
               t7 ++ [⟨"indexing", "Indexed " ++ natStr n ++ " vectors", 100⟩],
               some vectors⟩

/-- Non-decreasing check for a percent sequence. -/
def nondecreasing : List Nat → Bool
  | [] => true
  | [_] => true
  | a :: b :: rest => decide (a ≤ b) && nondecreasing (b :: rest)

/-- C8 evaluation: a successful ingestion of a two-page PDF whose first
page carries one image emits the percents
10, 10, 12, 12, 17, 18, 19, 14, 20, 30, 40, 45, 50, 55, 60, 75, 80, 100 —
the image-analysis percents (17/18/19) of page 1 are followed by 14 at
the start of page 2, so the sequence is not monotonically
non-decreasing even though the run succeeds and ends at 100. -/
def pdfDemoOutcome : ProcOutcome :=
  process_document (Except.ok (parse_pdf [⟨"Hello", 1⟩, ⟨"World", 0⟩]))
    (fun s => [s]) (Except.ok ()) (fun ts => Except.ok (ts.map fun _ => [1]))
    (fun v => Except.ok v.length) (fun _ => 0) "report.pdf"

/-! ### Chunker (spec-modelled) -/

/-- Modelled from the spec: the Chunker (§4.2, §8).  The repository
delegates splitting to `langchain_text_splitters.
RecursiveCharacterTextSplitter`, whose implementation is not part of
this repository; the spec describes the component as producing
"overlapping fixed-size chunks" in which "consecutive chunks share
exactly `overlap` characters", which is the fixed-stride windowing
below.  Fuel-based so the kernel can evaluate it; `split` supplies
`text.length` fuel, enough whenever `overlap < chunkSize`. -/
def splitGo : Nat → Nat → Nat → List Char → List (List Char)
  | 0, _, _, t => [t]
  | fuel + 1, size, step, t =>
    if t.length ≤ size then [t]
    else t.take size :: splitGo fuel size step (t.drop step)

/-- Modelled from the spec: `split(text, chunkSize, overlap)` — chunks
start every `chunkSize - overlap` characters. -/
def split (chunkSize overlap : Nat) (text : String) : List String :=
  (splitGo text.length chunkSize (chunkSize - overlap) text.data).map
    fun l => ⟨l⟩

/-- Re-concatenation of chunks with the first `overlap` characters of
every chunk but the first removed — the round-trip inverse named by the
spec's law. -/
def recombineChars (overlap : Nat) : List (List Char) → List Char
  | [] => []
  | c :: cs => c ++ (cs.map (List.drop overlap)).flatten

def recombine (overlap : Nat) (chunks : List String) : String :=
  ⟨recombineChars overlap (chunks.map String.data)⟩

/-! ### Theorems -/

theorem digitVal_decDigit {d : Nat} (h : d < 10) : digitVal (decDigit d) = d := by
  interval_cases d <;> rfl

theorem decDigit_isDigit {d : Nat} (h : d < 10) : (decDigit d).isDigit = true := by
  interval_cases d <;> rfl

theorem decValue_append (l : List Char) (c : Char) :
    decValue (l ++ [c]) = 10 * decValue l + digitVal c := by
  simp [decValue, List.foldl_append]

theorem decValue_natCharsGo :
    ∀ (fuel n : Nat), n < fuel → decValue (natCharsGo fuel n) = n := by
  intro fuel
  induction fuel with
  | zero => intro n hn; omega
  | succ fuel ih =>
    intro n hn
    rw [natCharsGo]
    by_cases h : n < 10
    · simp only [h, if_pos]
      simp [decValue, digitVal_decDigit h]
    · simp only [h, if_false]
      rw [decValue_append, ih (n / 10) (by omega),
        digitVal_decDigit (Nat.mod_lt _ (by omega))]
      omega

theorem decValue_natChars (n : Nat) : decValue (natChars n) = n :=
  decValue_natCharsGo (n + 1) n (Nat.lt_succ_self n)

theorem natChars_injective : Function.Injective natChars := by
  intro m n h
  have := decValue_natChars m
  rw [h, decValue_natChars] at this
  omega

theorem natStr_injective : Function.Injective natStr := by
  intro m n h
  exact natChars_injective (congrArg String.data h)

theorem natCharsGo_all_digits :
    ∀ (fuel n : Nat), ∀ c ∈ natCharsGo fuel n, c.isDigit = true := by
  intro fuel
  induction fuel with
  | zero => intro n c hc; simp [natCharsGo] at hc
  | succ fuel ih =>
    intro n
    rw [natCharsGo]
    by_cases h : n < 10
    · simp only [h, if_pos, List.mem_singleton]
      rintro c rfl
      exact decDigit_isDigit h
    · simp only [h, if_false, List.mem_append, List.mem_singleton]
      rintro c (hc | rfl)
      · exact ih (n / 10) c hc
      · exact decDigit_isDigit (Nat.mod_lt _ (by omega))

theorem natChars_all_digits (n : Nat) : ∀ c ∈ natChars n, c.isDigit = true :=
  natCharsGo_all_digits (n + 1) n

theorem natChars_ne_nil (n : Nat) : natChars n ≠ [] := by
  rw [natChars, natCharsGo]
  by_cases h : n < 10 <;> simp [h]

theorem digit_ne_underscore {c : Char} (h : c.isDigit = true) : c ≠ '_' := by
  rintro rfl; simp [Char.isDigit] at h

theorem digit_ne_minus {c : Char} (h : c.isDigit = true) : c ≠ '-' := by
  rintro rfl; simp [Char.isDigit] at h

theorem underscore_not_mem_natChars (n : Nat) : '_' ∉ natChars n := by
  intro hm
  exact digit_ne_underscore (natChars_all_digits n _ hm) rfl

theorem underscore_not_mem_intStr (h : Int) : '_' ∉ (intStr h).data := by
  cases h with
  | ofNat m => exact underscore_not_mem_natChars m
  | negSucc m =>
    intro hm
    rw [intStr, String.data_append] at hm
    rcases List.mem_append.mp hm with hm | hm
    · simp at hm
    · exact underscore_not_mem_natChars _ hm

theorem intStr_injective : Function.Injective intStr := by
  intro a b h
  cases a with
  | ofNat m =>
    cases b with
    | ofNat n => exact congrArg Int.ofNat (natStr_injective h)
    | negSucc n =>
      exfalso
      have hd := congrArg String.data h
      rw [intStr, intStr, String.data_append] at hd
      have hne := natChars_ne_nil m
      cases hm : natChars m with
      | nil => exact hne hm
      | cons c cs =>
        have hc : c.isDigit = true := natChars_all_digits m c (by rw [hm]; exact List.mem_cons_self _ _)
        have : c = '-' := by
          have : (natStr m).data = natChars m := rfl
          rw [show (natStr m).data = natChars m from rfl, hm] at hd
          simpa using congrArg (List.headI) hd
        exact digit_ne_minus hc this
  | negSucc m =>
    cases b with
    | ofNat n =>
      exfalso
      have hd := congrArg String.data h
      rw [intStr, intStr, String.data_append] at hd
      have hne := natChars_ne_nil n
      cases hn : natChars n with
      | nil => exact hne hn
      | cons c cs =>
        have hc : c.isDigit = true := natChars_all_digits n c (by rw [hn]; exact List.mem_cons_self _ _)
        have : c = '-' := by
          rw [show (natStr n).data = natChars n from rfl, hn] at hd
          simpa using (congrArg (List.headI) hd).symm
        exact digit_ne_minus hc this
    | negSucc n =>
      have hd := congrArg String.data h
      rw [intStr, intStr, String.data_append, String.data_append] at hd
      have heq : natChars (m + 1) = natChars (n + 1) := by simpa using hd
      have := natChars_injective heq
      simp only [Int.negSucc.injEq]
      omega

theorem append_underscore_cancel :
    ∀ {a c b d : List Char}, '_' ∉ a → '_' ∉ c →
      a ++ '_' :: b = c ++ '_' :: d → a = c ∧ b = d := by
  intro a
  induction a with
  | nil =>
    intro c b d _ hc h
    cases c with
    | nil => simpa using h
    | cons y ys =>
      exfalso
      rw [List.nil_append, List.cons_append] at h
      have : '_' = y := (List.cons.injEq _ _ _ _).mp h |>.1
      exact hc (this ▸ List.mem_cons_self _ _)
  | cons x xs ih =>
    intro c b d ha hc h
    cases c with
    | nil =>
      exfalso
      rw [List.nil_append, List.cons_append] at h
      have : x = '_' := (List.cons.injEq _ _ _ _).mp h |>.1
      exact ha (this ▸ List.mem_cons_self _ _)
    | cons y ys =>
      rw [List.cons_append, List.cons_append] at h
      obtain ⟨rfl, htail⟩ := (List.cons.injEq _ _ _ _).mp h
      have ha' : '_' ∉ xs := fun hm => ha (List.mem_cons_of_mem _ hm)
      have hc' : '_' ∉ ys := fun hm => hc (List.mem_cons_of_mem _ hm)
      obtain ⟨rfl, hbd⟩ := ih ha' hc' htail
      exact ⟨rfl, hbd⟩

theorem reverse_underscore_shape (x a b : List Char) :
    (x ++ '_' :: (a ++ '_' :: b)).reverse
      = b.reverse ++ '_' :: (a.reverse ++ '_' :: x.reverse) := by
  simp [List.reverse_append, List.append_assoc]

/-- The identifier string determines the filename, the chunk index and
the hash value: the decimal blocks contain no underscore, so the last
two underscores of the id split it unambiguously. -/
theorem mkVectorId_inj {fn fn' : String} {i i' : Nat} {hv hv' : Int}
    (h : mkVectorId fn i hv = mkVectorId fn' i' hv') :
    fn = fn' ∧ i = i' ∧ hv = hv' := by
  have hd : fn.data ++ '_' :: (natChars i ++ '_' :: (intStr hv).data)
      = fn'.data ++ '_' :: (natChars i' ++ '_' :: (intStr hv').data) := by
    have hdata := congrArg String.data h
    simp only [mkVectorId, String.data_append] at hdata
    simpa [natStr, List.append_assoc] using hdata
  have hrev := congrArg List.reverse hd
  rw [reverse_underscore_shape, reverse_underscore_shape] at hrev
  have h1 := append_underscore_cancel
    (fun hm => underscore_not_mem_intStr hv (List.mem_reverse.mp hm))
    (fun hm => underscore_not_mem_intStr hv' (List.mem_reverse.mp hm)) hrev
  have h2 := append_underscore_cancel
    (fun hm => underscore_not_mem_natChars i (List.mem_reverse.mp hm))
    (fun hm => underscore_not_mem_natChars i' (List.mem_reverse.mp hm)) h1.2
  refine ⟨String.ext (List.reverse_injective h2.2), ?_, ?_⟩
  · exact natChars_injective (List.reverse_injective h2.1)
  · exact intStr_injective (String.ext (List.reverse_injective h1.1))

theorem prepare_vectors_map_id (pyHash : String → Int) (docs : List ChunkDoc)
    (embs : List (List ℚ)) (fn : String) :
    (prepare_vectors pyHash docs embs fn).map PineVector.id
      = ((docs.zip embs).enum).map fun p => mkVectorId fn p.1 (pyHash p.2.1.text) := by
  simp [prepare_vectors, List.map_map]

theorem ids_enumFrom_indep (pyHash : String → Int) (fn : String) :
    ∀ (k : Nat) (docs : List ChunkDoc) (embs embs' : List (List ℚ)),
      embs.length = embs'.length →
      ((docs.zip embs).enumFrom k).map (fun p => mkVectorId fn p.1 (pyHash p.2.1.text))
        = ((docs.zip embs').enumFrom k).map (fun p => mkVectorId fn p.1 (pyHash p.2.1.text)) := by
  intro k docs
  induction docs generalizing k with
  | nil => intro embs embs' _; simp
  | cons d ds ih =>
    intro embs embs' hlen
    cases embs with
    | nil => cases embs' with
      | nil => rfl
      | cons e' es' => simp at hlen
    | cons e es =>
      cases embs' with
      | nil => simp at hlen
      | cons e' es' =>
        simp only [List.zip_cons_cons, List.enumFrom, List.map_cons]
        congr 1
        exact ih (k + 1) es es' (by simpa using hlen)

/-- C1 (amended): identifiers are a function of (filename, index, text
hash) only — in particular re-preparing the same chunks yields the same
ids whatever the embeddings are; all ids produced in one call are
pairwise distinct; and an id determines the filename, chunk index and
hash value, so ids for different filenames or indices never collide,
and at equal filename and index a collision forces a hash collision. -/
theorem prepare_vectors_id_unique (pyHash : String → Int) (fn fn' : String)
    (docs : List ChunkDoc) (embs embs' : List (List ℚ)) :
    ((prepare_vectors pyHash docs embs fn).map PineVector.id).Nodup
    ∧ (embs.length = embs'.length →
        (prepare_vectors pyHash docs embs fn).map PineVector.id
          = (prepare_vectors pyHash docs embs' fn).map PineVector.id)
    ∧ (∀ i i' hv hv', mkVectorId fn i hv = mkVectorId fn' i' hv' →
        fn = fn' ∧ i = i' ∧ hv = hv') := by
  refine ⟨?_, ?_, fun i i' hv hv' h => mkVectorId_inj h⟩
  · rw [prepare_vectors_map_id]
    have henum : ((docs.zip embs).enum).Nodup := by
      have : (((docs.zip embs).enum).map Prod.fst).Nodup := by
        rw [List.enum_map_fst]; exact List.nodup_range _
      exact this.of_map _
    refine henum.map_on ?_
    intro p hp q hq hpq
    have hfst : p.1 = q.1 := (mkVectorId_inj hpq).2.1
    have hnk : (((docs.zip embs).enum).map Prod.fst).Nodup := by
      rw [List.enum_map_fst]; exact List.nodup_range _
    exact List.inj_on_of_nodup_map hnk hp hq hfst
  · intro hlen
    rw [prepare_vectors_map_id, prepare_vectors_map_id]
    exact ids_enumFrom_indep pyHash fn 0 docs embs embs' hlen

/-- Witness for `prepare_vectors_id_unique`. -/
theorem prepare_vectors_id_unique_spot :
    ("doc" : String) = "doc" ∧ (0 : Nat) = 0 ∧ (5 : Int) = 5 :=
  (prepare_vectors_id_unique (fun _ => 0) "doc" "doc" [] [] []).2.2 0 0 5 5 rfl

/-- Any hash whose values fit in a signed 64-bit word (as CPython's
string hash does) identifies two distinct contents, so their ids at the
same filename and chunk index coincide. -/
theorem hash64_id_collision (pyHash : String → Int)
    (hrange : ∀ s, -(2 ^ 63) ≤ pyHash s ∧ pyHash s ≤ 2 ^ 63 - 1) :
    ∃ t t' : String, t ≠ t'
      ∧ mkVectorId "doc" 0 (pyHash t) = mkVectorId "doc" 0 (pyHash t') := by
  have hmaps : ∀ k ∈ Finset.range (2 ^ 64 + 1),
      pyHash ⟨List.replicate k 'a'⟩ ∈ Finset.Icc (-(2 ^ 63) : ℤ) (2 ^ 63 - 1) :=
    fun k _ => Finset.mem_Icc.mpr ⟨(hrange _).1, (hrange _).2⟩
  have hcard : (Finset.Icc (-(2 ^ 63) : ℤ) (2 ^ 63 - 1)).card
      < (Finset.range (2 ^ 64 + 1)).card := by
    rw [Int.card_Icc, Finset.card_range]
    norm_num
  obtain ⟨x, _, y, _, hxy, hfxy⟩ :=
    Finset.exists_ne_map_eq_of_card_lt_of_maps_to hcard hmaps
  refine ⟨⟨List.replicate x 'a'⟩, ⟨List.replicate y 'a'⟩, ?_, ?_⟩
  · intro hcontra
    apply hxy
    have : List.replicate x 'a' = List.replicate y 'a' := congrArg String.data hcontra
    simpa using congrArg List.length this
  · exact congrArg (mkVectorId "doc" 0) hfxy

/-- C1 counterexample: it is not true that — for whatever 64-bit-valued
hash function the process uses — two chunks with different content
always receive different identifiers. -/
theorem vector_id_content_unique_false :
    ¬ (∀ pyHash : String → Int,
        (∀ s, -(2 ^ 63) ≤ pyHash s ∧ pyHash s ≤ 2 ^ 63 - 1) →
        ∀ t t' : String, t ≠ t' →
          mkVectorId "doc" 0 (pyHash t) ≠ mkVectorId "doc" 0 (pyHash t')) := by
  intro hall
  obtain ⟨t, t', hne, heq⟩ :=
    hash64_id_collision (fun _ => 0) (fun _ => by norm_num)
  exact hall (fun _ => 0) (fun _ => by norm_num) t t' hne heq

theorem filter_eq_keepsPassage (threshold : ℚ) (documents : List PDoc) :
    (documents.filter fun d =>
      match effScore d with
      | some s => decide (threshold ≤ s)
      | none => true)
    = documents.filter (keepsPassage threshold) := rfl

/-- C5 counterexample: at the configured threshold (0.3) and K (30) the
code differs from the claimed filter on both counts — a passage whose
`score` key is a literal `0` is retained (Python `or` treats it as
missing), and the empty-filter fallback returns the first
`min(10, n)` candidates, not the top K. -/
theorem filter_by_similarity_claim_false :
    (filter_by_similarity PINECONE_RAG_SIMILARITY_THRESHOLD
        [⟨"good", some 1, none⟩, ⟨"zero", some 0, none⟩]
      ≠ specFilterTopK PINECONE_RAG_SIMILARITY_THRESHOLD PINECONE_RAG_K
        [⟨"good", some 1, none⟩, ⟨"zero", some 0, none⟩])
    ∧ (filter_by_similarity PINECONE_RAG_SIMILARITY_THRESHOLD
        (List.replicate 11 ⟨"low", some qTenth, none⟩)
      ≠ specFilterTopK PINECONE_RAG_SIMILARITY_THRESHOLD PINECONE_RAG_K
        (List.replicate 11 ⟨"low", some qTenth, none⟩)) := by
  constructor <;> decide

/-- C5 (amended): for a positive threshold and non-empty input the
filter never returns an empty list; its survivors come from the input
in order; when at least one passage is kept by the retention predicate
(no usable score, or usable score ≥ threshold — a present zero score
counting as unusable) the result is exactly the retained passages; and
when nothing is kept the result is the first `min(10, n)` candidates. -/
theorem filter_by_similarity_spec (threshold : ℚ) (documents : List PDoc)
    (hpos : 0 < threshold) (hne : documents ≠ []) :
    filter_by_similarity threshold documents ≠ []
    ∧ (filter_by_similarity threshold documents).Sublist documents
    ∧ ((∃ d ∈ documents, keepsPassage threshold d = true) →
        filter_by_similarity threshold documents
          = documents.filter (keepsPassage threshold))
    ∧ ((∀ d ∈ documents, keepsPassage threshold d = false) →
        filter_by_similarity threshold documents
          = documents.take (min 10 documents.length)) := by
  have hnotempty : documents.isEmpty = false := by
    cases documents with
    | nil => exact absurd rfl hne
    | cons d ds => rfl
  have hth : ¬ threshold ≤ 0 := not_le.mpr hpos
  have hunfold : filter_by_similarity threshold documents =
      if (documents.filter (keepsPassage threshold)).isEmpty then
        documents.take (min 10 documents.length)
      else documents.filter (keepsPassage threshold) := by
    unfold filter_by_similarity
    rw [filter_eq_keepsPassage]
    simp only [hnotempty, Bool.false_eq_true, if_false, if_neg hth]
  by_cases hk : ∃ d ∈ documents, keepsPassage threshold d = true
  · obtain ⟨d, hd, hkeep⟩ := hk
    have hmem : d ∈ documents.filter (keepsPassage threshold) :=
      List.mem_filter.mpr ⟨hd, hkeep⟩
    have hfne : (documents.filter (keepsPassage threshold)).isEmpty = false := by
      cases hflt : documents.filter (keepsPassage threshold) with
      | nil => rw [hflt] at hmem; simp at hmem
      | cons x xs => rfl
    have hmain : filter_by_similarity threshold documents
        = documents.filter (keepsPassage threshold) := by
      rw [hunfold, hfne]
      simp only [Bool.false_eq_true, if_false]
    refine ⟨?_, ?_, fun _ => hmain, fun hnone => ?_⟩
    · rw [hmain]
      intro hcontra
      rw [hcontra] at hmem
      simp at hmem
    · rw [hmain]
      exact List.filter_sublist _
    · rw [hnone d hd] at hkeep
      exact absurd hkeep (by simp)
  · push_neg at hk
    have hfe : documents.filter (keepsPassage threshold) = [] := by
      rw [List.filter_eq_nil_iff]
      intro d hd
      exact hk d hd
    have hmain : filter_by_similarity threshold documents
        = documents.take (min 10 documents.length) := by
      rw [hunfold, hfe]
      rfl
    refine ⟨?_, ?_, fun hex => ?_, fun _ => hmain⟩
    · rw [hmain]
      cases documents with
      | nil => exact absurd rfl hne
      | cons d ds => simp
    · rw [hmain]
      exact List.take_sublist _ _
    · obtain ⟨d, hd, hkeep⟩ := hex
      exact absurd hkeep (hk d hd)

/-- Witness for `filter_by_similarity_spec`. -/
theorem filter_by_similarity_spec_spot :
    filter_by_similarity PINECONE_RAG_SIMILARITY_THRESHOLD [⟨"a", some qTenth, none⟩] ≠ [] :=
  (filter_by_similarity_spec PINECONE_RAG_SIMILARITY_THRESHOLD [⟨"a", some qTenth, none⟩]
    (by decide) (by decide)).1

/-- C9: a passage carrying neither a `'score'` nor a
`'similarity_score'` key is always retained, whatever the threshold. -/
theorem unscored_passage_retained (threshold : ℚ) (documents : List PDoc)
    (d : PDoc) (hmem : d ∈ documents)
    (hs : d.score = none) (hss : d.similarity_score = none) :
    d ∈ filter_by_similarity threshold documents := by
  have hnotempty : documents.isEmpty = false := by
    cases documents with
    | nil => simp at hmem
    | cons x xs => rfl
  unfold filter_by_similarity
  rw [hnotempty]
  simp only [Bool.false_eq_true, if_false]
  by_cases hth : threshold ≤ 0
  · rw [if_pos hth]; exact hmem
  · rw [if_neg hth]
    have heff : effScore d = none := by
      unfold effScore pyOr
      rw [hs, hss]
    have hmemf : d ∈ documents.filter fun d =>
        match effScore d with
        | some s => decide (threshold ≤ s)
        | none => true := by
      refine List.mem_filter.mpr ⟨hmem, ?_⟩
      rw [heff]
    have hfne : (documents.filter fun d =>
        match effScore d with
        | some s => decide (threshold ≤ s)
        | none => true).isEmpty = false := by
      cases hflt : documents.filter fun d =>
          match effScore d with
          | some s => decide (threshold ≤ s)
          | none => true with
      | nil => rw [hflt] at hmemf; simp at hmemf
      | cons x xs => rfl
    rw [hfne]
    simpa using hmemf

/-- Witness for `unscored_passage_retained`. -/
theorem unscored_passage_retained_spot :
    (⟨"plain", none, none⟩ : PDoc) ∈ filter_by_similarity 1 [⟨"plain", none, none⟩] :=
  unscored_passage_retained 1 [⟨"plain", none, none⟩] ⟨"plain", none, none⟩
    (by decide) rfl rfl

theorem natCharsGo_length_le :
    ∀ (fuel n d : Nat), n < 10 ^ d → (natCharsGo fuel n).length ≤ d + 1 := by
  intro fuel
  induction fuel with
  | zero => intro n d _; simp [natCharsGo]
  | succ fuel ih =>
    intro n d hn
    rw [natCharsGo]
    by_cases h : n < 10
    · simp only [h, if_pos, List.length_singleton]
      omega
    · simp only [h, if_false, List.length_append, List.length_singleton]
      have hd : 1 ≤ d := by
        by_contra hcon
        push_neg at hcon
        interval_cases d
        simp at hn
        omega
      have hdiv : n / 10 < 10 ^ (d - 1) := by
        rw [Nat.div_lt_iff_lt_mul (by norm_num)]
        calc n < 10 ^ d := hn
          _ = 10 ^ (d - 1) * 10 := by
              rw [← pow_succ]
              congr 1
              omega
      have := ih (n / 10) (d - 1) hdiv
      omega

theorem take_eq_self_of_le (s : String) (n : Nat) (h : s.data.length ≤ n) :
    s.take n = s := by
  apply String.ext
  rw [String.data_take]
  exact List.take_of_length_le h

theorem natStr_take_500 (k : Nat) (hk : k < 10 ^ 20) :
    (natStr k).take 500 = natStr k := by
  apply take_eq_self_of_le
  have hb : (natChars k).length ≤ 21 := by
    rw [natChars]
    have := natCharsGo_length_le (k + 1) k 20 hk
    omega
  calc (natStr k).data.length = (natChars k).length := rfl
    _ ≤ 21 := hb
    _ ≤ 500 := by omega

theorem firstSeen_sublist (pyHash : String → Int) :
    ∀ (n : Nat) (l : List PDoc), l.length ≤ n →
      (firstSeen pyHash l).Sublist l := by
  intro n
  induction n with
  | zero =>
    intro l hl
    cases l with
    | nil => simp [firstSeen]
    | cons d ds => simp at hl
  | succ n ih =>
    intro l hl
    cases l with
    | nil => simp [firstSeen]
    | cons d ds =>
      rw [firstSeen]
      refine List.Sublist.cons₂ d ?_
      refine (ih _ ?_).trans (List.filter_sublist _)
      exact le_trans (List.length_filter_le _ _) (by simpa using Nat.le_of_succ_le_succ hl)

theorem firstSeen_pairwise (pyHash : String → Int) :
    ∀ (n : Nat) (l : List PDoc), l.length ≤ n →
      List.Pairwise (fun a b => fingerprint pyHash a ≠ fingerprint pyHash b)
        (firstSeen pyHash l) := by
  intro n
  induction n with
  | zero =>
    intro l hl
    cases l with
    | nil => simp [firstSeen]
    | cons d ds => simp at hl
  | succ n ih =>
    intro l hl
    cases l with
    | nil => simp [firstSeen]
    | cons d ds =>
      rw [firstSeen]
      have hlen : (ds.filter fun x =>
          decide (fingerprint pyHash x ≠ fingerprint pyHash d)).length ≤ n :=
        le_trans (List.length_filter_le _ _) (by simpa using Nat.le_of_succ_le_succ hl)
      refine List.Pairwise.cons ?_ (ih _ hlen)
      intro x hx
      have hxf : x ∈ ds.filter fun x =>
          decide (fingerprint pyHash x ≠ fingerprint pyHash d) :=
        (firstSeen_sublist pyHash n _ hlen).mem hx
      have := (List.mem_filter.mp hxf).2
      intro hcontra
      rw [hcontra] at this
      simp at this

theorem firstSeen_covers (pyHash : String → Int) :
    ∀ (n : Nat) (l : List PDoc), l.length ≤ n →
      ∀ d ∈ l, ∃ e ∈ firstSeen pyHash l,
        fingerprint pyHash e = fingerprint pyHash d := by
  intro n
  induction n with
  | zero =>
    intro l hl d hd
    cases l with
    | nil => simp at hd
    | cons x xs => simp at hl
  | succ n ih =>
    intro l hl d hd
    cases l with
    | nil => simp at hd
    | cons x xs =>
      rw [firstSeen]
      rcases List.mem_cons.mp hd with heq | hd'
      · exact ⟨x, List.mem_cons_self _ _, by rw [heq]⟩
      · by_cases hfp : fingerprint pyHash d = fingerprint pyHash x
        · exact ⟨x, List.mem_cons_self _ _, hfp.symm⟩
        · have hdf : d ∈ xs.filter fun y =>
              decide (fingerprint pyHash y ≠ fingerprint pyHash x) :=
            List.mem_filter.mpr ⟨hd', by simpa using hfp⟩
          have hlen : (xs.filter fun y =>
              decide (fingerprint pyHash y ≠ fingerprint pyHash x)).length ≤ n :=
            le_trans (List.length_filter_le _ _) (by simpa using Nat.le_of_succ_le_succ hl)
          obtain ⟨e, he, hfe⟩ := ih _ hlen d hdf
          exact ⟨e, List.mem_cons_of_mem _ he, hfe⟩

theorem firstSeen_nil (pyHash : String → Int) : firstSeen pyHash [] = [] := by
  rw [firstSeen]

theorem dedupGo_eq_firstSeen (pyHash : String → Int) :
    ∀ (docs : List PDoc) (seen : List Int),
      dedupGo pyHash seen docs
        = firstSeen pyHash (docs.filter fun d =>
            decide (fingerprint pyHash d ∉ seen)) := by
  intro docs
  induction docs with
  | nil => intro seen; rw [List.filter_nil, firstSeen_nil]; rfl
  | cons d ds ih =>
    intro seen
    by_cases hs : fingerprint pyHash d ∈ seen
    · rw [dedupGo, if_pos hs, ih seen]
      have : (decide (fingerprint pyHash d ∉ seen)) = false := by simpa using hs
      simp only [List.filter_cons, this, Bool.false_eq_true, if_false]
    · rw [dedupGo, if_neg hs, ih (fingerprint pyHash d :: seen)]
      have hdk : (decide (fingerprint pyHash d ∉ seen)) = true := by simpa using hs
      have harg : (ds.filter fun x =>
            decide (fingerprint pyHash x ∉ fingerprint pyHash d :: seen))
          = ((ds.filter fun x => decide (fingerprint pyHash x ∉ seen)).filter
              fun x => decide (fingerprint pyHash x ≠ fingerprint pyHash d)) := by
        rw [List.filter_filter]
        apply List.filter_congr
        intro x _
        rcases Decidable.em (fingerprint pyHash x = fingerprint pyHash d) with hxd | hxd
        · simp [hxd]
        · rcases Decidable.em (fingerprint pyHash x ∈ seen) with hxs | hxs
          · simp [hxd, hxs]
          · simp [hxd, hxs]
      rw [harg]
      simp only [List.filter_cons, hdk, if_true]
      rw [firstSeen]

theorem deduplicate_eq_firstSeen (pyHash : String → Int) (documents : List PDoc) :
    deduplicate_documents pyHash documents
      = (firstSeen pyHash documents).take PINECONE_RAG_K := by
  cases documents with
  | nil => rw [firstSeen_nil]; rfl
  | cons d ds =>
    unfold deduplicate_documents
    rw [dedupGo_eq_firstSeen]
    have : ((d :: ds).filter fun d =>
        decide (fingerprint pyHash d ∉ ([] : List Int))) = d :: ds := by
      rw [List.filter_eq_self]
      intro x _
      simp
    rw [this]
    rfl

/-- Any hash whose values fit in a signed 64-bit word (as CPython's
string hash does) collides on two contents of at most 500 characters;
their 500-character prefixes are the contents themselves, so
deduplication merges two passages from distinct prefix groups and drops
the second one. -/
theorem hash64_fingerprint_collision (pyHash : String → Int)
    (hrange : ∀ s, -(2 ^ 63) ≤ pyHash s ∧ pyHash s ≤ 2 ^ 63 - 1) :
    ∃ d d2 : PDoc, d.page_content.take 500 ≠ d2.page_content.take 500
      ∧ fingerprint pyHash d = fingerprint pyHash d2
      ∧ deduplicate_documents pyHash [d, d2] = [d] := by
  have hmaps : ∀ k ∈ Finset.range (2 ^ 64 + 1),
      pyHash (natStr k) ∈ Finset.Icc (-(2 ^ 63) : ℤ) (2 ^ 63 - 1) :=
    fun k _ => Finset.mem_Icc.mpr ⟨(hrange _).1, (hrange _).2⟩
  have hcard : (Finset.Icc (-(2 ^ 63) : ℤ) (2 ^ 63 - 1)).card
      < (Finset.range (2 ^ 64 + 1)).card := by
    rw [Int.card_Icc, Finset.card_range]
    norm_num
  obtain ⟨x, hx, y, hy, hxy, hfxy⟩ :=
    Finset.exists_ne_map_eq_of_card_lt_of_maps_to hcard hmaps
  have hx20 : x < 10 ^ 20 := by
    have := Finset.mem_range.mp hx
    calc x < 2 ^ 64 + 1 := this
      _ ≤ 10 ^ 20 := by norm_num
  have hy20 : y < 10 ^ 20 := by
    have := Finset.mem_range.mp hy
    calc y < 2 ^ 64 + 1 := this
      _ ≤ 10 ^ 20 := by norm_num
  refine ⟨⟨natStr x, none, none⟩, ⟨natStr y, none, none⟩, ?_, ?_, ?_⟩
  · show (natStr x).take 500 ≠ (natStr y).take 500
    rw [natStr_take_500 x hx20, natStr_take_500 y hy20]
    intro hcontra
    exact hxy (natStr_injective hcontra)
  · show pyHash ((natStr x).take 500) = pyHash ((natStr y).take 500)
    rw [natStr_take_500 x hx20, natStr_take_500 y hy20]
    exact hfxy
  · have hcol : fingerprint pyHash (⟨natStr y, none, none⟩ : PDoc)
        = fingerprint pyHash (⟨natStr x, none, none⟩ : PDoc) := by
      show pyHash ((natStr y).take 500) = pyHash ((natStr x).take 500)
      rw [natStr_take_500 x hx20, natStr_take_500 y hy20]
      exact hfxy.symm
    unfold deduplicate_documents
    rw [if_neg (by simp)]
    rw [dedupGo, if_neg (List.not_mem_nil _)]
    rw [dedupGo, if_pos (List.mem_singleton.mpr hcol)]
    rw [dedupGo]
    rfl

/-- C6 counterexample: it is not true that — for whatever 64-bit-valued
process hash is in play — two passages whose first 500 characters
differ are both kept: every such hash collides on some pair of distinct
short contents, and the second passage of such a pair is silently
dropped although it starts a new 500-character prefix group. -/
theorem dedup_prefix_groups_false :
    ¬ (∀ pyHash : String → Int,
        (∀ s, -(2 ^ 63) ≤ pyHash s ∧ pyHash s ≤ 2 ^ 63 - 1) →
        ∀ d d2 : PDoc, d.page_content.take 500 ≠ d2.page_content.take 500 →
          deduplicate_documents pyHash [d, d2] = [d, d2]) := by
  intro hall
  obtain ⟨d, d2, hne, -, heq⟩ :=
    hash64_fingerprint_collision (fun _ => 0) (fun _ => by norm_num)
  have := hall (fun _ => 0) (fun _ => by norm_num) d d2 hne
  rw [heq] at this
  have hlen := congrArg List.length this
  simp at hlen

/-- C6 (amended): deduplication is first-seen deduplication on the
process hash of the 500-character content prefix, capped at the
configured maximum: the result is `firstSeen` truncated to K; the
survivors appear in their original order (a sublist of the input);
their hash fingerprints are pairwise distinct; the output never exceeds
K; before the cap every input document's fingerprint group is
represented by its first-seen element; and two passages agreeing on
their first 500 characters always share a fingerprint, so of such a
pair only the first-seen passage survives — but passages with distinct
prefixes are merged as well whenever their hashes collide. -/
theorem deduplicate_documents_spec (pyHash : String → Int)
    (documents : List PDoc) :
    deduplicate_documents pyHash documents
        = (firstSeen pyHash documents).take PINECONE_RAG_K
    ∧ (firstSeen pyHash documents).Sublist documents
    ∧ List.Pairwise (fun a b => fingerprint pyHash a ≠ fingerprint pyHash b)
        (firstSeen pyHash documents)
    ∧ (deduplicate_documents pyHash documents).length ≤ PINECONE_RAG_K
    ∧ (∀ d ∈ documents, ∃ e ∈ firstSeen pyHash documents,
        fingerprint pyHash e = fingerprint pyHash d)
    ∧ (∀ d d2 : PDoc, d.page_content.take 500 = d2.page_content.take 500 →
        fingerprint pyHash d = fingerprint pyHash d2) := by
  refine ⟨deduplicate_eq_firstSeen pyHash documents,
    firstSeen_sublist pyHash documents.length documents le_rfl,
    firstSeen_pairwise pyHash documents.length documents le_rfl, ?_,
    firstSeen_covers pyHash documents.length documents le_rfl, ?_⟩
  · rw [deduplicate_eq_firstSeen]
    exact List.length_take_le _ _
  · intro d d2 h
    show pyHash (d.page_content.take 500) = pyHash (d2.page_content.take 500)
    rw [h]

/-- Witness for `deduplicate_documents_spec`. -/
theorem deduplicate_documents_spec_spot :
    ∃ e ∈ firstSeen (fun _ => 0) [⟨"A", none, none⟩, ⟨"A", some 1, none⟩],
      fingerprint (fun _ => 0) e = fingerprint (fun _ => 0) ⟨"A", some 1, none⟩ :=
  (deduplicate_documents_spec (fun _ => 0)
    [⟨"A", none, none⟩, ⟨"A", some 1, none⟩]).2.2.2.2.1
    ⟨"A", some 1, none⟩ (by decide)

/-- C2 counterexample: with store results `[(A, 5), (B, 2)]` (raw
distances, store order) the code returns the store's first document
first — scores dropped, no conversion — while the claimed fallback
would rank `B` (distance 2) before `A` and attach converted
similarities.  The stand-in hash distinguishes the two contents. -/
theorem retrieve_fallback_claim_false :
    retrieve_context_docs (fun s => ((s.data.headD ' ').toNat : Int)) [] []
        [(⟨"A", none, none⟩, 5), (⟨"B", none, none⟩, 2)]
      ≠ specFallbackRanked [(⟨"A", none, none⟩, 5), (⟨"B", none, none⟩, 2)] := by
  decide

/-- C2 (amended): when the fan-out search and the direct retry both
return nothing, the retriever takes the fallback documents exactly as
returned by `similarity_search_with_score` — scores discarded, no
distance-to-similarity conversion, no re-ranking — and only
deduplicates them, so the final order is a sublist of the store's
order. -/
theorem retrieve_fallback_store_order (pyHash : String → Int)
    (fanout direct : List PDoc) (store : List (PDoc × ℚ))
    (h1 : fanout = []) (h2 : direct = []) :
    retrieve_context_docs pyHash fanout direct store
      = deduplicate_documents pyHash (store.map Prod.fst)
    ∧ (retrieve_context_docs pyHash fanout direct store).Sublist
        (store.map Prod.fst) := by
  subst h1 h2
  have hmain : retrieve_context_docs pyHash [] [] store
      = deduplicate_documents pyHash (store.map Prod.fst) := rfl
  refine ⟨hmain, ?_⟩
  rw [hmain, deduplicate_eq_firstSeen]
  exact (List.take_sublist _ _).trans
    (firstSeen_sublist pyHash (store.map Prod.fst).length _ le_rfl)

/-- Witness for `retrieve_fallback_store_order`. -/
theorem retrieve_fallback_store_order_spot :
    retrieve_context_docs (fun _ => 0) [] [] [(⟨"A", none, none⟩, 5)]
      = deduplicate_documents (fun _ => 0) [⟨"A", none, none⟩] :=
  (retrieve_fallback_store_order (fun _ => 0) [] []
    [(⟨"A", none, none⟩, 5)] rfl rfl).1

theorem batchesGo_flatten :
    ∀ (fuel bs : Nat) (l : List String), 0 < bs → l.length ≤ fuel →
      (batchesGo fuel bs l).flatten = l := by
  intro fuel
  induction fuel with
  | zero =>
    intro bs l _ hl
    have : l = [] := List.length_eq_zero.mp (Nat.le_zero.mp hl)
    rw [this]
    rfl
  | succ fuel ih =>
    intro bs l hbs hl
    cases l with
    | nil => rfl
    | cons x xs =>
      rw [batchesGo]
      simp only [List.isEmpty_cons, Bool.false_eq_true, if_false, List.flatten_cons]
      rw [ih bs ((x :: xs).drop bs) hbs ?hfuel]
      · exact List.take_append_drop bs (x :: xs)
      case hfuel =>
        rw [List.length_drop, List.length_cons]
        rw [List.length_cons] at hl
        omega

theorem collectResults_providerOf (f : List String → List (List ℚ)) :
    ∀ l : List (Nat × List String),
      collectResults (providerOf f) l = Except.ok (l.map fun p => (p.1, f p.2)) := by
  intro l
  induction l with
  | nil => rfl
  | cons p rest ih =>
    cases p with
    | mk n b => rw [collectResults, ih]; rfl

theorem canonical_pairwise_lt (bs : Nat) (texts : List String)
    (f : List String → List (List ℚ)) :
    List.Pairwise keyLT ((enumBatches bs texts).map fun p => (p.1, f p.2)) := by
  rw [List.pairwise_map]
  unfold enumBatches
  rw [List.pairwise_map]
  have h1 : List.Pairwise (· < ·) (((batchesOf bs texts).enum).map Prod.fst) := by
    rw [List.enum_map_fst]
    exact List.pairwise_lt_range _
  have h2 := List.pairwise_map.mp h1
  exact h2.imp fun h => Nat.succ_lt_succ h

theorem sorted_perm_keys_eq (m c : List (Nat × List (List ℚ)))
    (hperm : m.Perm c) (hm : List.Sorted keyLE m) (hc : List.Pairwise keyLT c) :
    m = c := by
  have hckeys : List.Pairwise (fun a b : Nat × List (List ℚ) => a.1 ≠ b.1) c :=
    hc.imp fun h => Nat.ne_of_lt h
  have hmkeys : List.Pairwise (fun a b : Nat × List (List ℚ) => a.1 ≠ b.1) m := by
    have hnodup : (c.map Prod.fst).Nodup := List.pairwise_map.mpr hckeys
    have : (m.map Prod.fst).Nodup := (hnodup.perm (hperm.map Prod.fst).symm)
    exact List.pairwise_map.mp this
  have hmlt : List.Sorted keyLT m := by
    have := (List.Pairwise.and hm hmkeys)
    exact this.imp fun h => Nat.lt_of_le_of_ne h.1 h.2
  exact List.eq_of_perm_of_sorted hperm hmlt (hc.imp fun h => h)

/-- C3: for a positive batch size and any completion order (any
permutation of the numbered batch list), `generate_embeddings` returns
exactly the concatenation of the per-batch provider results in
ascending batch order; hence for a pointwise provider the i-th output
embedding is the embedding of the i-th input text. -/
theorem generate_embeddings_order (bs : Nat) (texts : List String)
    (order : List (Nat × List String)) (hbs : 0 < bs)
    (hperm : order.Perm (enumBatches bs texts)) :
    (∀ f : List String → List (List ℚ),
      generate_embeddings (providerOf f) bs texts order
        = Except.ok (((batchesOf bs texts).map f).flatten))
    ∧ (∀ g : String → List ℚ,
      generate_embeddings (providerOf fun b => b.map g) bs texts order
        = Except.ok (texts.map g)) := by
  have hkey : ∀ f : List String → List (List ℚ),
      generate_embeddings (providerOf f) bs texts order
        = Except.ok (((batchesOf bs texts).map f).flatten) := by
    intro f
    by_cases hempty : texts.isEmpty
    · have htexts : texts = [] := by
        cases texts with
        | nil => rfl
        | cons x xs => simp at hempty
      subst htexts
      rfl
    · have hsorteq : List.insertionSort keyLE (order.map fun p => (p.1, f p.2))
          = (enumBatches bs texts).map fun p => (p.1, f p.2) := by
        apply sorted_perm_keys_eq
        · exact (List.perm_insertionSort keyLE _).trans (hperm.map _)
        · exact List.sorted_insertionSort keyLE _
        · exact canonical_pairwise_lt bs texts f
      have hsnd : (((enumBatches bs texts).map fun p => (p.1, f p.2)).map Prod.snd)
          = (batchesOf bs texts).map f := by
        unfold enumBatches
        rw [List.map_map, List.map_map]
        rw [show ((Prod.snd ∘ fun p : Nat × List String => (p.1, f p.2)) ∘
              fun p : Nat × List String => (p.1 + 1, p.2))
            = f ∘ Prod.snd from rfl]
        rw [← List.map_map, List.enum_map_snd]
      unfold generate_embeddings
      rw [if_neg hempty, collectResults_providerOf]
      show Except.ok (((List.insertionSort keyLE
          (order.map fun p => (p.1, f p.2))).map Prod.snd).flatten) = _
      rw [hsorteq, hsnd]
  refine ⟨hkey, fun g => ?_⟩
  rw [hkey (fun b => b.map g)]
  have hflat : (batchesOf bs texts).flatten = texts :=
    batchesGo_flatten texts.length bs texts hbs le_rfl
  rw [show ((batchesOf bs texts).map (fun b : List String => b.map g))
      = ((batchesOf bs texts).map (List.map g)) from rfl]
  rw [← List.map_flatten, hflat]

/-- Witness for `generate_embeddings_order`: a three-text, two-batch
input whose second batch completes first. -/
theorem generate_embeddings_order_spot :
    generate_embeddings (providerOf fun b => b.map fun _ => [1]) 2 ["a", "b", "c"]
        ((enumBatches 2 ["a", "b", "c"]).reverse)
      = Except.ok [[1], [1], [1]] :=
  (generate_embeddings_order 2 ["a", "b", "c"]
    ((enumBatches 2 ["a", "b", "c"]).reverse) (by decide)
    (by decide)).2 (fun _ => [1])

theorem collectResults_error (provider : List String → Except String (List (List ℚ))) :
    ∀ (order : List (Nat × List String)),
      (∃ p ∈ order, ∃ e, provider p.2 = Except.error e) →
      ∃ (k : Nat) (b : List String) (cause : String), (k, b) ∈ order
        ∧ provider b = Except.error cause
        ∧ collectResults provider order
            = Except.error ("Batch " ++ natStr k ++ " error: " ++ cause) := by
  intro order
  induction order with
  | nil => rintro ⟨p, hp, -⟩; simp at hp
  | cons q rest ih =>
    rintro ⟨p, hp, e, he⟩
    cases q with
    | mk n b =>
      cases hpb : provider b with
      | error eb =>
        refine ⟨n, b, eb, List.mem_cons_self _ _, hpb, ?_⟩
        rw [collectResults, hpb]
      | ok r =>
        have hrest : ∃ p ∈ rest, ∃ e, provider p.2 = Except.error e := by
          rcases List.mem_cons.mp hp with rfl | hmem
          · rw [he] at hpb; cases hpb
          · exact ⟨p, hmem, e, he⟩
        obtain ⟨k, b2, cause, hkmem, hkerr, hkeq⟩ := ih hrest
        refine ⟨k, b2, cause, List.mem_cons_of_mem _ hkmem, hkerr, ?_⟩
        rw [collectResults, hpb, hkeq]

/-- C4 (embedding half): if any batch of the input fails, the whole
`generate_embeddings` call returns an error naming a failing batch
(`"Batch {n} error: {cause}"`), and no embedding list is produced. -/
theorem generate_embeddings_batch_failure
    (provider : List String → Except String (List (List ℚ)))
    (bs : Nat) (texts : List String) (order : List (Nat × List String))
    (hperm : order.Perm (enumBatches bs texts))
    (hfail : ∃ p ∈ enumBatches bs texts, ∃ e, provider p.2 = Except.error e) :
    ∃ (k : Nat) (b : List String) (cause : String),
      (k, b) ∈ enumBatches bs texts
      ∧ provider b = Except.error cause
      ∧ generate_embeddings provider bs texts order
          = Except.error ("Batch " ++ natStr k ++ " error: " ++ cause) := by
  obtain ⟨p, hpmem, e, he⟩ := hfail
  have hpord : p ∈ order := hperm.mem_iff.mpr hpmem
  obtain ⟨k, b, cause, hkmem, hkerr, hkeq⟩ :=
    collectResults_error provider order ⟨p, hpord, e, he⟩
  have htne : texts.isEmpty = false := by
    cases htexts : texts with
    | nil =>
      exfalso
      rw [htexts] at hperm
      have : order = [] := List.Perm.eq_nil (by simpa [enumBatches, batchesOf, batchesGo] using hperm)
      rw [this] at hpord
      simp at hpord
    | cons x xs => rfl
  refine ⟨k, b, cause, hperm.mem_iff.mp hkmem, hkerr, ?_⟩
  unfold generate_embeddings
  rw [htne, hkeq]
  rfl

/-- Witness for `generate_embeddings_batch_failure`. -/
theorem generate_embeddings_batch_failure_spot :
    ∃ (k : Nat) (b : List String) (cause : String),
      (k, b) ∈ enumBatches 2 ["a", "b", "c"]
      ∧ (fun _ => (Except.error "boom" : Except String (List (List ℚ)))) b
          = Except.error cause
      ∧ generate_embeddings (fun _ => Except.error "boom") 2 ["a", "b", "c"]
          (enumBatches 2 ["a", "b", "c"])
          = Except.error ("Batch " ++ natStr k ++ " error: " ++ cause) :=
  generate_embeddings_batch_failure (fun _ => Except.error "boom") 2 ["a", "b", "c"]
    (enumBatches 2 ["a", "b", "c"]) (List.Perm.refl _)
    ⟨(1, ["a", "b"]), by decide, "boom", rfl⟩

/-- C10: `process_document` always returns a result object — every
stage failure is absorbed into `success = false` with an error message,
while a fully successful run reports `success = true`, no error, the
number of chunks produced by the splitter and their total character
count. -/
theorem process_document_total (parse : Except String (List ProgressEvent × String))
    (splitText : String → List String) (getIndex : Except String Unit)
    (embedAll : List String → Except String (List (List ℚ)))
    (upsert : List PineVector → Except String Nat)
    (pyHash : String → Int) (filename : String) :
    ((process_document parse splitText getIndex embedAll upsert pyHash filename).result.success = true
      ∧ (process_document parse splitText getIndex embedAll upsert pyHash filename).result.error = none
      ∧ ∃ pt content, parse = Except.ok (pt, content) ∧ content ≠ ""
          ∧ (process_document parse splitText getIndex embedAll upsert pyHash filename).result.chunks_processed
              = some (splitText content).length
          ∧ (process_document parse splitText getIndex embedAll upsert pyHash filename).result.total_chars
              = some ((splitText content).map String.length).sum)
    ∨ ((process_document parse splitText getIndex embedAll upsert pyHash filename).result.success = false
      ∧ ∃ e, (process_document parse splitText getIndex embedAll upsert pyHash filename).result.error = some e) := by
  unfold process_document
  by_cases hext : ¬ (fileExt filename = ".docx" ∨ fileExt filename = ".doc"
      ∨ fileExt filename = ".pdf" ∨ fileExt filename = ".txt")
  · rw [if_pos hext]
    exact Or.inr ⟨rfl, _, rfl⟩
  · rw [if_neg hext]
    split
    · exact Or.inr ⟨rfl, _, rfl⟩
    · rename_i pc
      obtain ⟨pt, content⟩ := pc
      by_cases hcontent : content = ""
      · rw [if_pos hcontent]
        exact Or.inr ⟨rfl, _, rfl⟩
      · rw [if_neg hcontent]
        dsimp only
        split
        · exact Or.inr ⟨rfl, _, rfl⟩
        · split
          · exact Or.inr ⟨rfl, _, rfl⟩
          · split
            · exact Or.inr ⟨rfl, _, rfl⟩
            · refine Or.inl ⟨rfl, rfl, pt, content, rfl, hcontent, ?_, rfl⟩
              simp [List.length_map, List.enum_length]

/-- C4: if any batch fails, `generate_embeddings` as a whole fails with
an error naming a failing batch and yields no embeddings; and a
pipeline whose embedding stage fails writes nothing to the vector
store and reports failure. -/
theorem embedding_failure_aborts_ingestion
    (provider : List String → Except String (List (List ℚ)))
    (bs : Nat) (texts : List String) (order : List (Nat × List String))
    (parse : Except String (List ProgressEvent × String))
    (splitText : String → List String) (getIndex : Except String Unit)
    (embedAll : List String → Except String (List (List ℚ)))
    (upsert : List PineVector → Except String Nat)
    (pyHash : String → Int) (filename : String) :
    ((order.Perm (enumBatches bs texts)) →
      (∃ p ∈ enumBatches bs texts, ∃ e, provider p.2 = Except.error e) →
      ∃ (k : Nat) (b : List String) (cause : String),
        (k, b) ∈ enumBatches bs texts
        ∧ provider b = Except.error cause
        ∧ generate_embeddings provider bs texts order
            = Except.error ("Batch " ++ natStr k ++ " error: " ++ cause))
    ∧ ((∀ ts, ∃ e, embedAll ts = Except.error e) →
      (process_document parse splitText getIndex embedAll upsert pyHash filename).upserted = none
      ∧ (process_document parse splitText getIndex embedAll upsert pyHash filename).result.success = false) := by
  constructor
  · intro hperm hfail
    exact generate_embeddings_batch_failure provider bs texts order hperm hfail
  · intro hfailAll
    unfold process_document
    by_cases hext : ¬ (fileExt filename = ".docx" ∨ fileExt filename = ".doc"
        ∨ fileExt filename = ".pdf" ∨ fileExt filename = ".txt")
    · rw [if_pos hext]
      exact ⟨rfl, rfl⟩
    · rw [if_neg hext]
      split
      · exact ⟨rfl, rfl⟩
      · rename_i pc
        obtain ⟨pt, content⟩ := pc
        by_cases hcontent : content = ""
        · rw [if_pos hcontent]
          exact ⟨rfl, rfl⟩
        · rw [if_neg hcontent]
          dsimp only
          split
          · exact ⟨rfl, rfl⟩
          · obtain ⟨e, he⟩ := hfailAll (((splitText content).enum.map fun p =>
                ChunkDoc.mk p.2 filename p.1 (splitText content).length).map ChunkDoc.text)
            rw [he]
            exact ⟨rfl, rfl⟩

/-- Witness for `embedding_failure_aborts_ingestion`. -/
theorem embedding_failure_aborts_ingestion_spot :
    (process_document (Except.ok ([], "hello")) (fun s => [s]) (Except.ok ())
        (fun _ => Except.error "boom") (fun v => Except.ok v.length)
        (fun _ => 0) "notes.txt").upserted = none
    ∧ (process_document (Except.ok ([], "hello")) (fun s => [s]) (Except.ok ())
        (fun _ => Except.error "boom") (fun v => Except.ok v.length)
        (fun _ => 0) "notes.txt").result.success = false :=
  (embedding_failure_aborts_ingestion (fun _ => Except.error "boom") 2 []
    [] (Except.ok ([], "hello")) (fun s => [s]) (Except.ok ())
    (fun _ => Except.error "boom") (fun v => Except.ok v.length)
    (fun _ => 0) "notes.txt").2 (fun _ => ⟨"boom", rfl⟩)

theorem pdf_progress_not_monotone :
    pdfDemoOutcome.result.success = true
    ∧ nondecreasing (pdfDemoOutcome.trace.map ProgressEvent.percent) = false
    ∧ (pdfDemoOutcome.trace.map ProgressEvent.percent).getLast? = some 100 := by
  refine ⟨?_, ?_, ?_⟩ <;> decide

theorem splitGo_drop_flatten :
    ∀ (fuel size ovl : Nat) (t : List Char), ovl < size → t.length ≤ fuel →
      ((splitGo fuel size (size - ovl) t).map (List.drop ovl)).flatten
        = t.drop ovl := by
  intro fuel
  induction fuel with
  | zero =>
    intro size ovl t _ ht
    have : t = [] := List.length_eq_zero.mp (Nat.le_zero.mp ht)
    subst this
    simp [splitGo]
  | succ fuel ih =>
    intro size ovl t hov ht
    rw [splitGo]
    by_cases hle : t.length ≤ size
    · simp only [hle, if_pos]
      simp
    · simp only [hle, if_false]
      rw [List.map_cons, List.flatten_cons]
      rw [ih size ovl (t.drop (size - ovl)) hov ?hfuel]
      · rw [List.drop_take, List.drop_drop]
        rw [show size - ovl + ovl = ovl + (size - ovl) from by omega]
        rw [← List.drop_drop]
        exact List.take_append_drop _ _
      case hfuel =>
        rw [List.length_drop]
        omega

theorem recombineChars_splitGo (fuel size ovl : Nat) (t : List Char)
    (hov : ovl < size) (ht : t.length ≤ fuel) :
    recombineChars ovl (splitGo fuel size (size - ovl) t) = t := by
  cases fuel with
  | zero =>
    have : t = [] := List.length_eq_zero.mp (Nat.le_zero.mp ht)
    subst this
    rfl
  | succ fuel =>
    rw [splitGo]
    by_cases hle : t.length ≤ size
    · simp only [hle, if_pos]
      simp [recombineChars]
    · simp only [hle, if_false]
      rw [recombineChars]
      rw [splitGo_drop_flatten fuel size ovl (t.drop (size - ovl)) hov
        (by rw [List.length_drop]; omega)]
      rw [List.drop_drop]
      rw [show size - ovl + ovl = size from by omega]
      exact List.take_append_drop _ _

/-- C7 (spec-modelled): for every chunking configuration with
`overlap < chunkSize` and every text, re-concatenating the produced
chunks with the overlap removed reproduces the original text exactly. -/
theorem chunker_round_trip (chunkSize overlap : Nat) (text : String)
    (hov : overlap < chunkSize) :
    recombine overlap (split chunkSize overlap text) = text := by
  apply String.ext
  show recombineChars overlap
      (((splitGo text.length chunkSize (chunkSize - overlap) text.data).map
        fun l => (⟨l⟩ : String)).map String.data) = text.data
  rw [List.map_map,
    show (String.data ∘ fun l : List Char => (⟨l⟩ : String)) = id from rfl,
    List.map_id]
  exact recombineChars_splitGo text.length chunkSize overlap text.data hov le_rfl

/-- Witness for `chunker_round_trip`: chunk size 3, overlap 1. -/
theorem chunker_round_trip_spot :
    recombine 1 (split 3 1 "abcdef") = "abcdef" :=
  chunker_round_trip 3 1 "abcdef" (by decide)

end RagPipeline

